import Mathlib

/-!
Verification development for the BBMax repository (a dividend-capture put-option
screener).  The repository contains two pipeline variants:

* `src/BBMaxBeta.py` — milestone-based highlighting (`analyze_symbol`,
  `fetch_dividends_from_yfinance`, the analyze-all aggregation);
* `src/BBMax.py` — flat-threshold highlighting (`fetch_dividend_data`,
  `fetch_put_option_data`, the select-all aggregation in `main`).

Dates are modelled as integer day numbers (the sources normalize all timestamps
to timezone-naive midnight before comparing, so calendar dates embed
order-isomorphically into ℤ).  Currency amounts and prices are modelled as ℚ,
matching the exact decimal arithmetic the spec requires mid-pipeline.
-/

/-- A historical dividend payment: calendar date (day number) and amount. -/
structure DivRecord where
  date : ℤ
  amount : ℚ
deriving DecidableEq

instance : Inhabited DivRecord := ⟨⟨0, 0⟩⟩

/-- A put-option contract as read from the chain feed. -/
structure Put where
  expiration : ℤ
  strike : ℚ
  lastPrice : ℚ
deriving DecidableEq

/-- Generic descending-lexicographic comparison used by the pandas
`sort_values(..., ascending=[False, False])` calls: `a` precedes `b` when `a`
has the larger primary key, or equal primary keys and `a` has the larger
(or equal) secondary key. -/
def keyLE {α : Type} (f : α → ℤ) (g : α → ℚ) (a b : α) : Prop :=
  f b < f a ∨ (f b = f a ∧ g b ≤ g a)

instance {α : Type} (f : α → ℤ) (g : α → ℚ) : DecidableRel (keyLE f g) := fun a b => by
  unfold keyLE
  infer_instance

instance {α : Type} (f : α → ℤ) (g : α → ℚ) : IsTotal α (keyLE f g) := ⟨by
  intro a b
  unfold keyLE
  rcases lt_trichotomy (f a) (f b) with h | h | h
  · exact Or.inr (Or.inl h)
  · rcases le_total (g b) (g a) with h2 | h2
    · exact Or.inl (Or.inr ⟨h.symm, h2⟩)
    · exact Or.inr (Or.inr ⟨h, h2⟩)
  · exact Or.inl (Or.inl h)⟩

instance {α : Type} (f : α → ℤ) (g : α → ℚ) : IsTrans α (keyLE f g) := ⟨by
  intro a b c hab hbc
  unfold keyLE at hab hbc ⊢
  rcases hab with h1 | ⟨h1, h1q⟩
  · rcases hbc with h2 | ⟨h2, _⟩
    · exact Or.inl (lt_trans h2 h1)
    · exact Or.inl (h2 ▸ h1)
  · rcases hbc with h2 | ⟨h2, h2q⟩
    · exact Or.inl (h1 ▸ h2)
    · exact Or.inr ⟨h1 ▸ h2, le_trans h2q h1q⟩⟩

/-- Python `int(x)` (truncation toward zero) on an exact rational. -/
def pyInt (q : ℚ) : ℤ := if 0 ≤ q then ⌊q⌋ else ⌈q⌉

/-!
## `src/BBMaxBeta.py` — the milestone-based variant
-/

/-- `fetch_dividends_from_yfinance(symbol, num_dividends)` (BBMaxBeta.py lines
25–43), with the yfinance series supplied as the list `dividends` in the order
the feed returns it.  On an empty series it returns the sentinel `(0.0, None)`;
otherwise it averages the positionally-last `n` entries (`iloc[-n:]`) and
reports the date of the positionally-last record (`index[-1]`).  It does not
sort. -/
def fetch_dividends_from_yfinance (dividends : List DivRecord) (n : ℕ) : ℚ × Option ℤ :=
  match dividends.getLast? with
  | none => (0, none)
  | some lastRec =>
      let recent := dividends.drop (dividends.length - n)
      (((recent.map DivRecord.amount).sum) / recent.length, some lastRec.date)

/-- The guard at BBMaxBeta.py line 108: `if avg_dividend == 0: return None, None`.
Analysis proceeds only when the fetched average is nonzero. -/
def analyze_proceeds (avg : ℚ) : Bool := !(decide (avg = 0))

/-- `max_budget_for_single_put_premium` (BBMaxBeta.py line 111). -/
def max_budget_for_single_put_premium (avg : ℚ) (pct : ℕ) : ℚ :=
  avg * ((pct : ℚ) / 100)

/-- `max_budget_for_extended_put_premium` (BBMaxBeta.py line 112). -/
def max_budget_for_extended_put_premium (avg : ℚ) (pct periods : ℕ) : ℚ :=
  max_budget_for_single_put_premium avg pct * periods

/-- `strike_price_threshold` (BBMaxBeta.py line 118):
`max(1, int(current_price) - strike_price_relative)`. -/
def strike_price_threshold (price : ℚ) (offset : ℕ) : ℤ :=
  max 1 (pyInt price - offset)

/-- The two sequential budget filters (BBMaxBeta.py lines 125–126): first keep
contracts with `strike >= strike_price_threshold`, then those with
`lastPrice <= max_budget_for_extended_put_premium`. -/
def filtered_puts (puts : List Put) (thr budget : ℚ) : List Put :=
  (puts.filter (fun p => decide (thr ≤ p.strike))).filter
    (fun p => decide (p.lastPrice ≤ budget))

/-- Sort key of BBMaxBeta.py line 143 (and line 198): expiration date
descending, then last price descending. -/
abbrev putLE : Put → Put → Prop := keyLE Put.expiration Put.lastPrice

/-- One output row of `analyze_symbol`: contract fields plus the `Highlight`
flag (`"✅"`/`""` modelled as `Bool`). -/
structure ScoredRow where
  expiration : ℤ
  strike : ℚ
  lastPrice : ℚ
  highlight : Bool
deriving DecidableEq

/-- Sort key used on scored rows in the consolidated (analyze-all) table:
expiration descending then last price descending. -/
abbrev rowLE : ScoredRow → ScoredRow → Prop := keyLE ScoredRow.expiration ScoredRow.lastPrice

/-- Pandas `sort_values(by=[expiration, lastPrice], ascending=[False, False])`
on scored rows.  With two sort keys pandas uses `np.lexsort`, an indirect
stable sort, which insertion sort models exactly. -/
def sortRows (l : List ScoredRow) : List ScoredRow := l.insertionSort rowLE

/-- The scored-row pipeline of `analyze_symbol` (BBMaxBeta.py lines 125–165):
filter by strike threshold and extended budget, stable-sort by (expiration
desc, last price desc), then attach `Highlight = (expiration >= highlight_date)`
to each surviving row. -/
def analyze_symbol_rows (puts : List Put) (thr budget : ℚ) (highlightDate : ℤ) :
    List ScoredRow :=
  ((filtered_puts puts thr budget).insertionSort putLE).map
    (fun p => ⟨p.expiration, p.strike, p.lastPrice, decide (highlightDate ≤ p.expiration)⟩)

/-- The advancing loop of BBMaxBeta.py lines 150–156: starting from `next`,
repeatedly add `cadence` days while the current value is `<= asOf`.  (In the
source `cadence` is the constant 28; the spec's Cadence Projector contract
names it `cadenceDays`, so it is kept as a parameter here.)  The degenerate
`cadence = 0` case, which the source never reaches, returns `next`. -/
def firstAfter (cadence : ℕ) (next asOf : ℤ) : ℤ :=
  if _h : cadence = 0 then next
  else if next ≤ asOf then firstAfter cadence (next + cadence) asOf
  else next
termination_by (asOf + 1 - next).toNat
decreasing_by
  simp_wf
  omega

/-- `highlight_date` (BBMaxBeta.py lines 150–160): advance from
`last_dividend_date + cadence` past `asOf` (today), then add
`cadence * (periodsAhead - 1)`. -/
def nextMilestone (lastDate : ℤ) (cadence : ℕ) (periodsAhead : ℕ) (asOf : ℤ) : ℤ :=
  firstAfter cadence (lastDate + cadence) asOf + (cadence : ℤ) * ((periodsAhead : ℤ) - 1)

/-!
## `src/BBMax.py` — the flat-threshold variant
-/

/-- The summary computed by `fetch_dividend_data` (BBMax.py lines 50–78):
total, count, last date and average over the chosen records. -/
structure DivSummary where
  total : ℚ
  count : ℕ
  lastDate : ℤ
  avg : ℚ
deriving DecidableEq

/-- Sort key of `dividends.sort_index(ascending=False)`: date descending
(no secondary key). -/
abbrev divLE : DivRecord → DivRecord → Prop := keyLE DivRecord.date (fun _ => 0)

/-- `fetch_dividend_data(symbol, num_past_dividends)` (BBMax.py lines 50–78):
sort the dividend series by date descending, take the first `n` entries,
and summarize them; `None` on an empty series (or an empty selection). -/
def fetch_dividend_data (records : List DivRecord) (n : ℕ) : Option DivSummary :=
  if records.isEmpty then none
  else
    let sorted := records.insertionSort divLE
    let lastN := sorted.take n
    if lastN.isEmpty then none
    else
      let total := (lastN.map DivRecord.amount).sum
      some ⟨total, lastN.length, lastN.headI.date, total / lastN.length⟩

/-- `premium_budget` (BBMax.py line 265):
`avg_dividend * (budget_percentage / 100) * multiplier`. -/
def premium_budget (avg : ℚ) (pct mult : ℕ) : ℚ :=
  avg * ((pct : ℚ) / 100) * mult

/-- `strike_price_threshold` in BBMax.py `main` (lines 266–269):
`np.floor(day_close_price) - strike_adjustment`, with no lower clamp. -/
def strike_price_threshold_bbmax (price : ℚ) (offset : ℕ) : ℚ :=
  ((⌊price⌋ : ℤ) : ℚ) - offset

/-- `estimated_future_budget` (BBMax.py lines 99–104): floor-divide the days
from the last dividend to expiration by the symbol's dividend frequency, and
budget that many average dividends at `budget_percentage`. -/
def estimated_future_budget (expDay lastDiv : ℤ) (freq : ℕ) (avg : ℚ) (pct : ℕ) : ℚ :=
  (((expDay - lastDiv).fdiv freq : ℤ) : ℚ) * avg * ((pct : ℚ) / 100)

/-- One opportunity row built by `fetch_put_option_data` (BBMax.py lines
106–113). -/
structure OppRow where
  expiration : ℤ
  strike : ℚ
  lastPrice : ℚ
  highlight : Bool
deriving DecidableEq

/-- `fetch_put_option_data` (BBMax.py lines 85–115): keep contracts with
`strike >= strike_price_threshold` and `lastPrice <= premium_budget`, and flag
each with `Highlight = (lastPrice <= estimated_future_budget)` — a flat
price threshold, not a milestone-date comparison. -/
def fetch_put_option_data (puts : List Put) (budget thr avg : ℚ) (lastDiv : ℤ)
    (pct freq : ℕ) : List OppRow :=
  (puts.filter (fun p => decide (thr ≤ p.strike) && decide (p.lastPrice ≤ budget))).map
    (fun p => ⟨p.expiration, p.strike, p.lastPrice,
      decide (p.lastPrice ≤ estimated_future_budget p.expiration lastDiv freq avg pct)⟩)

/-- Sort key of BBMax.py lines 283 and 321: expiration date descending, then
strike price descending. -/
abbrev oppLE : OppRow → OppRow → Prop := keyLE OppRow.expiration OppRow.strike

/-- Pandas `sort_values(by=[expiration, strike], ascending=[False, False])` on
BBMax opportunity rows. -/
def sortOpps (l : List OppRow) : List OppRow := l.insertionSort oppLE

/-- `combined_df` in the select-all branch of BBMax.py `main` (lines 254–286):
collect each symbol's nonempty opportunity table, concatenate, and sort by
(expiration desc, strike desc).  No restriction to highlighted rows. -/
def combined_df (all_opportunities : List (List OppRow)) : List OppRow :=
  let ne := all_opportunities.filter (fun l => !l.isEmpty)
  if ne.isEmpty then [] else sortOpps ne.flatten

/-!
## Consolidated (analyze-all) aggregation of `src/BBMaxBeta.py`
-/

/-- `consolidated_results` in the analyze-all branch of BBMaxBeta.py (lines
185–199): for each symbol keep only the rows with `Highlight == "✅"`, collect
the nonempty remainders, concatenate, and stable-sort by (expiration desc,
last price desc). -/
def consolidated_results (results : List (List ScoredRow)) : List ScoredRow :=
  let hl := results.map (fun l => l.filter (fun r => r.highlight))
  let ne := hl.filter (fun l => !l.isEmpty)
  if ne.isEmpty then [] else sortRows ne.flatten

/-!
## The numeric/date coercion step of `analyze_symbol` (BBMaxBeta.py 138–141)
-/

/-- A raw filtered row before coercion: `lastPrice` after
`pd.to_numeric(errors=coerce)` and the expiration after
`pd.to_datetime(errors=coerce)` are `none` exactly when conversion failed.
A parsed expiration is a timestamp: a day number plus seconds-of-day. -/
structure RawRow where
  expirationRaw : Option (ℤ × ℕ)
  lastPriceRaw : Option ℚ
  strike : ℚ
deriving DecidableEq

/-- A fully coerced row: both fields defined, expiration a timestamp. -/
structure CleanRow where
  expiration : ℤ × ℕ
  lastPrice : ℚ
  strike : ℚ
deriving DecidableEq

/-- `.dt.normalize()` (BBMaxBeta.py line 139): truncate each parsed expiration
timestamp to midnight. -/
def normalizeRows (l : List RawRow) : List RawRow :=
  l.map (fun r => ⟨r.expirationRaw.map (fun t => (t.1, 0)), r.lastPriceRaw, r.strike⟩)

/-- `dropna(subset=[lastPrice, expiration])` (BBMaxBeta.py line 141): keep, in
order, exactly the rows whose coercions both succeeded. -/
def dropnaRows (l : List RawRow) : List CleanRow :=
  l.filterMap (fun r =>
    match r.expirationRaw, r.lastPriceRaw with
    | some e, some p => some ⟨e, p, r.strike⟩
    | _, _ => none)

/-- Day-of-year number (1-based) of a 2025 calendar date, used to state the
spec's worked milestone scenario on the integer day model. -/
def dayOfYear2025 (m d : ℕ) : ℤ :=
  (([31, 28, 31, 30, 31, 30, 31, 31, 30, 31, 30, 31].take (m - 1)).sum : ℤ) + d

/-!
## Helper lemmas
-/

/-- One-step unfolding of the dividend-date advancing loop. -/
theorem firstAfter_unfold (c : ℕ) (n a : ℤ) :
    firstAfter c n a =
      if c = 0 then n else if n ≤ a then firstAfter c (n + c) a else n := by
  rw [firstAfter]
  by_cases h : c = 0 <;> simp [h]

/-- The advancing loop always lands strictly past `asOf`, on a point of the
cadence ladder through `next`, and on the first such point: either it never
iterated (`= next`) or the previous ladder point was still `≤ asOf`. -/
theorem firstAfter_spec (c : ℕ) (hc : 0 < c) (n a : ℤ) :
    a < firstAfter c n a ∧
      ∃ k : ℕ, firstAfter c n a = n + k * c ∧
        (firstAfter c n a = n ∨ firstAfter c n a - c ≤ a) := by
  have hc0 : ¬ c = 0 := Nat.pos_iff_ne_zero.mp hc
  by_cases h : n ≤ a
  · obtain ⟨ih1, k, ih2, ih3⟩ := firstAfter_spec c hc (n + c) a
    have heq : firstAfter c n a = firstAfter c (n + c) a := by
      rw [firstAfter_unfold, if_neg hc0, if_pos h]
    constructor
    · rw [heq]; exact ih1
    · refine ⟨k + 1, ?_, Or.inr ?_⟩
      · rw [heq, ih2]; push_cast; ring
      · rcases ih3 with h3 | h3
        · rw [heq, h3]; omega
        · rw [heq]; exact h3
  · have heq : firstAfter c n a = n := by
      rw [firstAfter_unfold, if_neg hc0, if_neg h]
    exact ⟨by rw [heq]; omega, 0, by rw [heq]; ring, Or.inl heq⟩
termination_by (a + 1 - n).toNat
decreasing_by
  simp_wf
  omega

/-- Stability of insertion sort, filter form: if all elements satisfying `p`
are mutually related by `r` (a tie class of the sort key), sorting does not
change their relative order. -/
theorem insertionSort_filter_tie {α : Type} (r : α → α → Prop) [DecidableRel r]
    (p : α → Bool) (l : List α) (hp : ∀ a b, p a = true → p b = true → r a b) :
    (l.insertionSort r).filter p = l.filter p := by
  have hpw : (l.filter p).Pairwise r := by
    refine List.pairwise_of_forall_mem_list ?_
    intro a ha b hb
    exact hp a b (List.of_mem_filter ha) (List.of_mem_filter hb)
  have h1 : List.Sublist (l.filter p) (l.insertionSort r) :=
    List.sublist_insertionSort hpw (List.filter_sublist l)
  have h2 : List.Sublist (l.filter p) ((l.insertionSort r).filter p) := by
    have := h1.filter p
    rwa [List.filter_filter, show (fun a => p a && p a) = p from funext fun a => Bool.and_self _]
      at this
  have h3 : List.Perm ((l.insertionSort r).filter p) (l.filter p) :=
    (List.perm_insertionSort r l).filter p
  exact (h2.eq_of_length h3.length_eq.symm).symm

/-- Filtering distributes over flattening. -/
theorem flatten_map_filter {α : Type} (p : α → Bool) :
    ∀ L : List (List α), (L.map (List.filter p)).flatten = L.flatten.filter p := by
  intro L
  induction L with
  | nil => rfl
  | cons hd tl ih =>
    rw [List.map_cons, List.flatten_cons, ih, List.flatten_cons, List.filter_append]

/-- Discarding empty member lists does not change the flattening. -/
theorem flatten_filter_nonempty {α : Type} :
    ∀ L : List (List α), (L.filter (fun l => !l.isEmpty)).flatten = L.flatten := by
  intro L
  induction L with
  | nil => rfl
  | cons hd tl ih =>
    cases hemp : hd.isEmpty with
    | true =>
      have hnil : hd = [] := List.isEmpty_iff.mp hemp
      subst hnil
      simpa using ih
    | false =>
      simp [List.filter_cons, hemp, ih]

/-!
## Claim theorems
-/

/-- Claim C2, counterexample.  The claim asserts that with
lastDividendDate = 2025-01-02, cadenceDays = 28, periodsAhead = 3 and
asOf = 2025-02-15, the milestone computation yields 2025-06-22.  It does not:
2025-01-02 + 28 = 2025-01-30 ≤ asOf, + 28 = 2025-02-27 > asOf, so the next
expected dividend is 2025-02-27 (the claim's trace "2025-02-27 ≤ asOf" is
arithmetically false), and the milestone is 2025-02-27 + 56 days, not
2025-06-22. -/
theorem milestone_scenario_not_june22 :
    ¬ nextMilestone (dayOfYear2025 1 2) 28 3 (dayOfYear2025 2 15) = dayOfYear2025 6 22 := by
  have e1 : dayOfYear2025 1 2 = 2 := by decide
  have e2 : dayOfYear2025 2 15 = 46 := by decide
  have e3 : dayOfYear2025 6 22 = 173 := by decide
  rw [e1, e2, e3, nextMilestone]
  rw [firstAfter_unfold]
  norm_num
  rw [firstAfter_unfold]
  norm_num

/-- Claim C2, amended.  With lastDividendDate = 2025-01-02, cadenceDays = 28,
periodsAhead = 3 and asOf = 2025-02-15, the milestone computation of
`analyze_symbol` (advance by 28-day steps until strictly past asOf, then add
28 × (periodsAhead − 1)) yields 2025-04-24 (2025-02-27 plus 56 days). -/
theorem milestone_scenario_april24 :
    nextMilestone (dayOfYear2025 1 2) 28 3 (dayOfYear2025 2 15) = dayOfYear2025 4 24 := by
  have e1 : dayOfYear2025 1 2 = 2 := by decide
  have e2 : dayOfYear2025 2 15 = 46 := by decide
  have e3 : dayOfYear2025 4 24 = 114 := by decide
  rw [e1, e2, e3, nextMilestone]
  rw [firstAfter_unfold]
  norm_num
  rw [firstAfter_unfold]
  norm_num

/-- Claim C3, counterexample.  The claim asserts the strike threshold always
equals `max(1, floor(currentPrice) - strikeOffset)` and is never below 1, but
the threshold computed in `main` of BBMax.py is `np.floor(price) - offset`
with no clamp: at price 5/2 and offset 4 it is −2, which is below 1 and
differs from `max(1, 2 − 4) = 1`. -/
theorem bbmax_threshold_below_one_cex :
    strike_price_threshold_bbmax (5/2) 4 = -2
    ∧ strike_price_threshold_bbmax (5/2) 4 < 1
    ∧ strike_price_threshold_bbmax (5/2) 4 ≠ ((max 1 (⌊(5/2 : ℚ)⌋ - 4) : ℤ) : ℚ) := by
  refine ⟨?_, ?_, ?_⟩ <;> norm_num [strike_price_threshold_bbmax]

/-- Claim C3, amended.  In BBMaxBeta.py (`analyze_symbol` line 118) the strike
threshold does equal `max(1, floor(currentPrice) - strikeOffset)` for every
positive current price and nonnegative offset, and in particular is at least 1;
the BBMax.py `main` variant omits the `max(1, ·)` clamp. -/
theorem beta_threshold_spec (price : ℚ) (offset : ℕ) (h : 0 < price) :
    strike_price_threshold price offset = max 1 (⌊price⌋ - offset)
    ∧ 1 ≤ strike_price_threshold price offset := by
  have hint : pyInt price = ⌊price⌋ := by rw [pyInt, if_pos h.le]
  constructor
  · rw [strike_price_threshold, hint]
  · rw [strike_price_threshold, hint]
    exact le_max_left _ _

/-- Witness for `beta_threshold_spec` at price = 3/2, offset = 5. -/
theorem beta_threshold_spec_witness :
    (0 : ℚ) < 3/2
    ∧ (strike_price_threshold (3/2) 5 = max 1 (⌊(3/2 : ℚ)⌋ - 5)
        ∧ 1 ≤ strike_price_threshold (3/2) 5) :=
  ⟨by norm_num, beta_threshold_spec (3/2) 5 (by norm_num)⟩

/-- Claim C4.  The extended premium budget is
`avgDividend × (pct/100) × periods` in both variants
(`max_budget_for_extended_put_premium` in BBMaxBeta.py, `premium_budget` in
BBMax.py); with avgDividend = 0.50, pct = 25, periods = 4 it equals 0.50, and
on that budget the chain filter keeps a contract with lastPrice = 0.45 and
strike above the threshold while dropping one with lastPrice = 0.55. -/
theorem extended_premium_spec (avg : ℚ) (pct periods : ℕ)
    (h0 : 0 ≤ avg) (h1 : 1 ≤ pct) (h2 : pct ≤ 100) (h3 : 1 ≤ periods) :
    max_budget_for_extended_put_premium avg pct periods
        = avg * ((pct : ℚ) / 100) * (periods : ℚ)
    ∧ premium_budget avg pct periods = avg * ((pct : ℚ) / 100) * (periods : ℚ)
    ∧ max_budget_for_extended_put_premium (1/2) 25 4 = 1/2
    ∧ filtered_puts [⟨100, 10, 9/20⟩, ⟨100, 10, 11/20⟩] 5
        (max_budget_for_extended_put_premium (1/2) 25 4) = [⟨100, 10, 9/20⟩] := by
  refine ⟨?_, ?_, ?_, ?_⟩
  · rw [max_budget_for_extended_put_premium, max_budget_for_single_put_premium]
  · rw [premium_budget]
  · norm_num [max_budget_for_extended_put_premium, max_budget_for_single_put_premium]
  · norm_num [filtered_puts, max_budget_for_extended_put_premium,
      max_budget_for_single_put_premium, List.filter]

/-- Witness for `extended_premium_spec` at avg = 1/2, pct = 25, periods = 4. -/
theorem extended_premium_spec_witness :
    (0 : ℚ) ≤ 1/2
    ∧ (max_budget_for_extended_put_premium (1/2) 25 4
          = (1/2 : ℚ) * (((25 : ℕ) : ℚ) / 100) * (((4 : ℕ)) : ℚ)
        ∧ premium_budget (1/2) 25 4 = (1/2 : ℚ) * (((25 : ℕ) : ℚ) / 100) * (((4 : ℕ)) : ℚ)
        ∧ max_budget_for_extended_put_premium (1/2) 25 4 = 1/2
        ∧ filtered_puts [⟨100, 10, 9/20⟩, ⟨100, 10, 11/20⟩] 5
            (max_budget_for_extended_put_premium (1/2) 25 4) = [⟨100, 10, 9/20⟩]) :=
  ⟨by norm_num,
    extended_premium_spec (1/2) 25 4 (by norm_num) (by norm_num) (by norm_num) (by norm_num)⟩

/-- Claim C8.  For every last dividend date, positive cadence, asOf date and
periodsAhead ≥ 1: raising periodsAhead by one moves the milestone by exactly
`cadenceDays`; with periodsAhead = 1 the milestone is the advancing loop's
output unchanged by the second step, and that output is exactly the first
point of the cadence ladder strictly after asOf. -/
theorem nextMilestone_spec (lastDate : ℤ) (cadence periodsAhead : ℕ) (asOf : ℤ)
    (hc : 0 < cadence) (hp : 1 ≤ periodsAhead) :
    nextMilestone lastDate cadence (periodsAhead + 1) asOf
        = nextMilestone lastDate cadence periodsAhead asOf + cadence
    ∧ nextMilestone lastDate cadence 1 asOf = firstAfter cadence (lastDate + cadence) asOf
    ∧ asOf < nextMilestone lastDate cadence 1 asOf
    ∧ ∃ k : ℕ, 1 ≤ k ∧ nextMilestone lastDate cadence 1 asOf = lastDate + k * cadence
        ∧ ∀ j : ℕ, 1 ≤ j → asOf < lastDate + j * cadence →
            nextMilestone lastDate cadence 1 asOf ≤ lastDate + j * cadence := by
  obtain ⟨h1, k, h2, h3⟩ := firstAfter_spec cadence hc (lastDate + cadence) asOf
  have hc' : (0 : ℤ) < (cadence : ℤ) := by exact_mod_cast hc
  have hm1 : nextMilestone lastDate cadence 1 asOf
      = firstAfter cadence (lastDate + cadence) asOf := by
    rw [nextMilestone]
    push_cast
    ring
  refine ⟨?_, hm1, ?_, k + 1, by omega, ?_, ?_⟩
  · rw [nextMilestone, nextMilestone]
    push_cast
    ring
  · rw [hm1]
    exact h1
  · rw [hm1, h2]
    push_cast
    ring
  · intro j hj hjgt
    have hj1 : (1 : ℤ) ≤ (j : ℤ) := by exact_mod_cast hj
    rw [hm1, h2]
    rcases h3 with h4 | h4
    · have hk0 : (k : ℤ) * (cadence : ℤ) = 0 := by
        rw [h4] at h2
        linarith
      have hmono : (1 : ℤ) * (cadence : ℤ) ≤ (j : ℤ) * (cadence : ℤ) :=
        mul_le_mul_of_nonneg_right hj1 hc'.le
      linarith
    · rw [h2] at h4
      have hlt : (k : ℤ) * (cadence : ℤ) < (j : ℤ) * (cadence : ℤ) := by linarith
      have hkj : (k : ℤ) < (j : ℤ) := lt_of_mul_lt_mul_right hlt hc'.le
      have hkj1 : (k : ℤ) + 1 ≤ (j : ℤ) := by omega
      have hmono : ((k : ℤ) + 1) * (cadence : ℤ) ≤ (j : ℤ) * (cadence : ℤ) :=
        mul_le_mul_of_nonneg_right hkj1 hc'.le
      linarith

/-- Witness for `nextMilestone_spec` at lastDate = 0, cadence = 28,
periodsAhead = 3, asOf = 46. -/
theorem nextMilestone_spec_witness :
    0 < 28 ∧ 1 ≤ 3
    ∧ (nextMilestone 0 28 (3 + 1) 46 = nextMilestone 0 28 3 46 + 28
        ∧ nextMilestone 0 28 1 46 = firstAfter 28 (0 + 28) 46
        ∧ 46 < nextMilestone 0 28 1 46
        ∧ ∃ k : ℕ, 1 ≤ k ∧ nextMilestone 0 28 1 46 = 0 + k * 28
            ∧ ∀ j : ℕ, 1 ≤ j → 46 < 0 + (j : ℤ) * 28 →
                nextMilestone 0 28 1 46 ≤ 0 + (j : ℤ) * 28) :=
  ⟨by norm_num, by norm_num, by exact nextMilestone_spec 0 28 3 46 (by norm_num) (by norm_num)⟩

/-- Claim C6, counterexample.  The claim asserts the dividend summarization
returns a no-data result distinguishable from a zero-average summary and that
downstream never treats a genuinely zero average as absence of data.  In
BBMaxBeta.py, `fetch_dividends_from_yfinance` returns the sentinel
`(0.0, None)` on an empty series — a zero-valued average — and the
`analyze_symbol` gate `if avg_dividend == 0` rejects a genuine zero-average
series (one dividend of amount 0) exactly as it rejects missing data. -/
theorem zero_average_conflated_cex :
    fetch_dividends_from_yfinance [] 6 = (0, none)
    ∧ fetch_dividends_from_yfinance [⟨0, 0⟩] 1 = (0, some 0)
    ∧ (fetch_dividends_from_yfinance [] 6).1 = (fetch_dividends_from_yfinance [⟨0, 0⟩] 1).1
    ∧ analyze_proceeds (fetch_dividends_from_yfinance [⟨0, 0⟩] 1).1 = false := by
  refine ⟨rfl, ?_, ?_, ?_⟩
  · norm_num [fetch_dividends_from_yfinance]
  · norm_num [fetch_dividends_from_yfinance]
  · norm_num [fetch_dividends_from_yfinance, analyze_proceeds]

/-- Claim C6, amended.  On an empty record collection the BBMaxBeta fetch
returns the sentinel `(0.0, None)` — a zero average, not a distinguished
Empty value — and whenever the returned average is 0 (whether from missing
data or a genuinely zero dividend) the downstream `analyze_symbol` gate
treats it as absence of data and produces no output. -/
theorem beta_zero_sentinel_spec (records : List DivRecord) (n m : ℕ)
    (havg : (fetch_dividends_from_yfinance records n).1 = 0) :
    fetch_dividends_from_yfinance [] m = (0, none)
    ∧ analyze_proceeds (fetch_dividends_from_yfinance records n).1 = false := by
  refine ⟨rfl, ?_⟩
  rw [havg]
  rfl

/-- Witness for `beta_zero_sentinel_spec` on the one-record series with a
genuinely zero dividend amount. -/
theorem beta_zero_sentinel_spec_witness :
    (fetch_dividends_from_yfinance [⟨0, 0⟩] 1).1 = 0
    ∧ (fetch_dividends_from_yfinance [] 1 = (0, none)
        ∧ analyze_proceeds (fetch_dividends_from_yfinance [⟨0, 0⟩] 1).1 = false) :=
  ⟨by norm_num [fetch_dividends_from_yfinance],
    beta_zero_sentinel_spec [⟨0, 0⟩] 1 1 (by norm_num [fetch_dividends_from_yfinance])⟩

/-- Claim C9, counterexample.  The claim asserts the summarizer itself sorts
descending by date before taking the lookback entries, so the result is
order-independent and the reported last date is the maximum date of the chosen
records.  BBMaxBeta.py's `fetch_dividends_from_yfinance` does not sort: on the
series [(date 5, 1), (date 3, 7)] with lookback 1 it returns average 7 and
last date 3 (the positionally-last record), which changes when the caller
permutes the series, and the reported date 3 is not the maximum date 5. -/
theorem beta_fetch_order_dependent_cex :
    fetch_dividends_from_yfinance [⟨5, 1⟩, ⟨3, 7⟩] 1 = (7, some 3)
    ∧ fetch_dividends_from_yfinance [⟨3, 7⟩, ⟨5, 1⟩] 1 = (1, some 5)
    ∧ ¬ fetch_dividends_from_yfinance [⟨5, 1⟩, ⟨3, 7⟩] 1
        = fetch_dividends_from_yfinance [⟨3, 7⟩, ⟨5, 1⟩] 1
    ∧ ¬ (∀ rec ∈ ([⟨5, 1⟩, ⟨3, 7⟩] : List DivRecord),
          rec.date ≤ (fetch_dividends_from_yfinance [⟨5, 1⟩, ⟨3, 7⟩] 1).2.getD 0) := by
  refine ⟨?_, ?_, ?_, ?_⟩
  · norm_num [fetch_dividends_from_yfinance]
  · norm_num [fetch_dividends_from_yfinance]
  · norm_num [fetch_dividends_from_yfinance]
  · intro hall
    have h5 := hall ⟨5, 1⟩ (by simp)
    norm_num [fetch_dividends_from_yfinance] at h5

/-- Claim C9, amended.  BBMax.py's `fetch_dividend_data` does satisfy the
claim: it sorts the series descending by date itself before taking the first
`n` entries, so for every nonempty input series and lookback ≥ 1 it returns a
summary whose count is `min n (number of records)`, whose reported last date
is a record date that bounds every record's date from above (the maximum, in
particular the maximum over the chosen most-recent subset), and whose average
is total/count.  (BBMaxBeta.py's unsorted fetch is the variant the
counterexample refutes.) -/
theorem bbmax_fetch_sorted_spec (records : List DivRecord) (n : ℕ)
    (hne : records ≠ []) (hn : 1 ≤ n) :
    ∃ s : DivSummary, fetch_dividend_data records n = some s
      ∧ s.count = min n records.length
      ∧ (∃ rec ∈ records, rec.date = s.lastDate)
      ∧ (∀ rec ∈ records, rec.date ≤ s.lastDate)
      ∧ s.avg = s.total / (s.count : ℚ) := by
  have hie : ¬ records.isEmpty = true := by
    rw [List.isEmpty_iff]
    exact hne
  obtain ⟨m, rfl⟩ : ∃ m, n = m + 1 := ⟨n - 1, by omega⟩
  cases hs : records.insertionSort divLE with
  | nil =>
    exfalso
    have hlen := List.length_insertionSort divLE records
    rw [hs] at hlen
    exact hne (List.length_eq_zero.mp hlen.symm)
  | cons s0 st =>
    have hsorted := List.sorted_insertionSort divLE records
    rw [hs] at hsorted
    have hmem0 : s0 ∈ records := by
      have hm : s0 ∈ records.insertionSort divLE := by
        rw [hs]
        exact List.mem_cons_self _ _
      rwa [List.mem_insertionSort] at hm
    have hmax : ∀ rec ∈ records, rec.date ≤ s0.date := by
      intro rec hrec
      have hm : rec ∈ records.insertionSort divLE := by
        rw [List.mem_insertionSort]
        exact hrec
      rw [hs] at hm
      rcases List.mem_cons.mp hm with h | h
      · rw [h]
      · rcases List.rel_of_sorted_cons hsorted rec h with hlt | ⟨heq, _⟩
        · exact hlt.le
        · exact heq.le
    have heval : fetch_dividend_data records (m + 1)
        = some ⟨((s0 :: st.take m).map DivRecord.amount).sum, (s0 :: st.take m).length,
            s0.date,
            ((s0 :: st.take m).map DivRecord.amount).sum / ((s0 :: st.take m).length : ℚ)⟩ := by
      unfold fetch_dividend_data
      rw [if_neg hie, hs]
      simp [List.take_succ_cons]
    refine ⟨_, heval, ?_, ⟨s0, hmem0, rfl⟩, hmax, rfl⟩
    show (s0 :: st.take m).length = min (m + 1) records.length
    have h1 : s0 :: st.take m = (records.insertionSort divLE).take (m + 1) := by
      rw [hs, List.take_succ_cons]
    rw [h1, List.length_take, List.length_insertionSort]

/-- Witness for `bbmax_fetch_sorted_spec` on the two-record series
[(date 5, 1), (date 3, 7)] with lookback 1. -/
theorem bbmax_fetch_sorted_spec_witness :
    ([⟨5, 1⟩, ⟨3, 7⟩] : List DivRecord) ≠ [] ∧ 1 ≤ 1
    ∧ ∃ s : DivSummary, fetch_dividend_data [⟨5, 1⟩, ⟨3, 7⟩] 1 = some s
        ∧ s.count = min 1 ([⟨5, 1⟩, ⟨3, 7⟩] : List DivRecord).length
        ∧ (∃ rec ∈ ([⟨5, 1⟩, ⟨3, 7⟩] : List DivRecord), rec.date = s.lastDate)
        ∧ (∀ rec ∈ ([⟨5, 1⟩, ⟨3, 7⟩] : List DivRecord), rec.date ≤ s.lastDate)
        ∧ s.avg = s.total / (s.count : ℚ) :=
  ⟨by decide, by decide, bbmax_fetch_sorted_spec [⟨5, 1⟩, ⟨3, 7⟩] 1 (by decide) (by decide)⟩

/-- Claim C5, counterexample.  The claim asserts batch mode restricts the
aggregate to rows with isHighlighted = true (and in particular returns empty
when no symbol has a highlighted row).  The select-all branch of BBMax.py
`main` does not: with one symbol whose only opportunity row is unhighlighted,
`combined_df` returns that row instead of the empty result the claim
requires. -/
theorem bbmax_batch_no_highlight_restriction_cex :
    ([(⟨10, 5, 1, false⟩ : OppRow)]).filter (fun r => r.highlight) = []
    ∧ combined_df [[⟨10, 5, 1, false⟩]] = [⟨10, 5, 1, false⟩]
    ∧ combined_df [[⟨10, 5, 1, false⟩]] ≠ [] := by
  refine ⟨rfl, by decide, by decide⟩

/-- Claim C5, amended.  In the analyze-all branch of BBMaxBeta.py the claim
holds: the consolidated table equals the concatenation of all symbols' scored
rows restricted to highlighted rows, re-sorted by (expiration desc, last price
desc); when only one symbol contributes highlighted rows (already sorted, as
`analyze_symbol` emits them) the output is exactly that symbol's highlighted
rows, and when no symbol has a highlighted row the output is empty.  The
BBMax.py select-all branch instead keeps unhighlighted rows and sorts by
(expiration desc, strike desc). -/
theorem beta_aggregate_spec (a b c : List ScoredRow)
    (ha : a.filter (fun r => r.highlight) = [])
    (hc : c.filter (fun r => r.highlight) = [])
    (hb : (b.filter (fun r => r.highlight)).Sorted rowLE) :
    (∀ results : List (List ScoredRow),
        consolidated_results results = sortRows (results.flatten.filter (fun r => r.highlight)))
    ∧ consolidated_results [a, b, c] = b.filter (fun r => r.highlight)
    ∧ (∀ results : List (List ScoredRow),
        (∀ l ∈ results, l.filter (fun r => r.highlight) = []) →
          consolidated_results results = []) := by
  have key : ∀ results : List (List ScoredRow),
      consolidated_results results
        = sortRows (results.flatten.filter (fun r => r.highlight)) := by
    intro results
    unfold consolidated_results
    by_cases hemp :
        ((results.map (fun l => l.filter (fun r => r.highlight))).filter
          (fun l => !l.isEmpty)).isEmpty = true
    · rw [if_pos hemp]
      rw [List.isEmpty_iff, List.filter_eq_nil_iff] at hemp
      have hfl : (results.map (fun l => l.filter (fun r => r.highlight))).flatten = [] := by
        rw [List.flatten_eq_nil_iff]
        intro l hl
        simpa [List.isEmpty_iff] using hemp l hl
      rw [← flatten_map_filter (fun r => r.highlight) results, hfl]
      rfl
    · rw [if_neg hemp, flatten_filter_nonempty, flatten_map_filter]
  refine ⟨key, ?_, ?_⟩
  · rw [key [a, b, c]]
    have hfb : [a, b, c].flatten.filter (fun r => r.highlight)
        = b.filter (fun r => r.highlight) := by
      simp [List.filter_append, ha, hc]
    rw [hfb]
    exact List.Sorted.insertionSort_eq hb
  · intro results hall
    rw [key results]
    have hnil : results.flatten.filter (fun r => r.highlight) = [] := by
      rw [← flatten_map_filter (fun r => r.highlight) results, List.flatten_eq_nil_iff]
      intro l hl
      rw [List.mem_map] at hl
      obtain ⟨x, hx, rfl⟩ := hl
      exact hall x hx
    rw [hnil]
    rfl

/-- Witness for `beta_aggregate_spec`: two empty symbols around one symbol
holding a single highlighted row. -/
theorem beta_aggregate_spec_witness :
    consolidated_results [[], [⟨5, 1, 1, true⟩], []] = [(⟨5, 1, 1, true⟩ : ScoredRow)] := by
  have hb : (([⟨5, 1, 1, true⟩] : List ScoredRow).filter (fun r => r.highlight)).Sorted
      rowLE := by
    simp [List.filter, List.sorted_singleton]
  have h := (beta_aggregate_spec [] [⟨5, 1, 1, true⟩] [] rfl rfl hb).2.1
  simpa [List.filter] using h

/-- Claim C7, counterexample.  The claim asserts the classifier output is
ordered by expiration descending then last price descending.  The display
sort of BBMax.py (lines 281–286) orders by expiration then strike: on two
rows with equal expiration, strikes 5 and 10, and last prices 3 and 1, the
sorted output places last price 1 before last price 3, so consecutive output
rows violate the claimed (expiration desc, last price desc) order. -/
theorem bbmax_sort_key_cex :
    sortOpps [⟨10, 5, 3, true⟩, ⟨10, 10, 1, true⟩] = [⟨10, 10, 1, true⟩, ⟨10, 5, 3, true⟩]
    ∧ ¬ ((10 : ℤ) < 10 ∨ ((10 : ℤ) = 10 ∧ (3 : ℚ) ≤ 1)) := by
  exact ⟨by decide, by decide⟩

/-- Claim C7, amended.  In BBMaxBeta.py the claim holds: the classifier output
`analyze_symbol_rows` is sorted by (expiration desc, last price desc), and the
sort is stable — contracts sharing both expiration and last price keep their
relative input order through the sort (their filtered subsequence is
unchanged).  BBMax.py's display sort uses strike, not last price, as the
secondary key. -/
theorem beta_sort_spec (puts : List Put) (thr budget : ℚ) (hd : ℤ) (e : ℤ) (q : ℚ) :
    (analyze_symbol_rows puts thr budget hd).Sorted rowLE
    ∧ ((filtered_puts puts thr budget).insertionSort putLE).filter
          (fun p => decide (p.expiration = e) && decide (p.lastPrice = q))
        = (filtered_puts puts thr budget).filter
          (fun p => decide (p.expiration = e) && decide (p.lastPrice = q)) := by
  constructor
  · unfold analyze_symbol_rows
    exact List.Pairwise.map _ (fun p1 p2 h12 => h12)
      (List.sorted_insertionSort putLE (filtered_puts puts thr budget))
  · apply insertionSort_filter_tie
    intro p1 p2 h1 h2
    rw [Bool.and_eq_true, decide_eq_true_eq, decide_eq_true_eq] at h1 h2
    exact Or.inr ⟨by rw [h1.1, h2.1], by rw [h1.2, h2.2]⟩

/-- Claim C1, counterexample.  The claim asserts that for every surviving
contract the highlight flag equals (isWithinBudget AND expirationDate ≥
ProjectedMilestone).  In BBMax.py's `fetch_put_option_data` the flag is
instead `lastPrice <= estimated_future_budget`: with last dividend at day 0,
frequency 28, average dividend 1, pct 25, premium budget `premium_budget 1 25
12 = 3`, strike threshold 40 and the single contract (expiration 100, strike
50, last price 2), the contract survives the filter (so is within budget) and
expires on/after the projected milestone (day 28, with periodsAhead = 1 and
asOf = 0), yet its highlight is false because 2 > 3 × 1 × 25% = 0.75. -/
theorem bbmax_highlight_flat_threshold_cex :
    ¬ ∀ r ∈ fetch_put_option_data [⟨100, 50, 2⟩] (premium_budget 1 25 12) 40 1 0 25 28,
        (r.highlight = true ↔
          ((40 : ℚ) ≤ r.strike ∧ r.lastPrice ≤ premium_budget 1 25 12
            ∧ nextMilestone 0 28 1 0 ≤ r.expiration)) := by
  intro hall
  have hbudget : premium_budget 1 25 12 = 3 := by
    norm_num [premium_budget]
  have hlist : fetch_put_option_data [⟨100, 50, 2⟩] (premium_budget 1 25 12) 40 1 0 25 28
      = [⟨100, 50, 2, false⟩] := by
    rw [hbudget]
    norm_num [fetch_put_option_data, estimated_future_budget,
      show Int.fdiv 100 28 = 3 from by decide]
  have hm : nextMilestone 0 28 1 0 = 28 := by
    rw [nextMilestone, firstAfter_unfold]
    norm_num
  have h := hall ⟨100, 50, 2, false⟩ (by rw [hlist]; exact List.mem_singleton_self _)
  have hconds : (40 : ℚ) ≤ (50 : ℚ) ∧ (2 : ℚ) ≤ premium_budget 1 25 12
      ∧ nextMilestone 0 28 1 0 ≤ (100 : ℤ) := by
    refine ⟨by norm_num, by rw [hbudget]; norm_num, by rw [hm]; norm_num⟩
  exact Bool.false_ne_true (h.mpr hconds)

/-- Claim C1, amended.  In BBMaxBeta.py's `analyze_symbol` the claim holds:
every row of the output survives the budget filter, and its highlight flag is
true iff the row is within budget (strike ≥ threshold and last price ≤
extended budget — automatically true for surviving rows) and its expiration
is on or after the highlight (milestone) date.  BBMax.py's
`fetch_put_option_data` instead highlights by the flat estimated-future-budget
price threshold. -/
theorem beta_highlight_iff (puts : List Put) (thr budget : ℚ) (hd : ℤ) (r : ScoredRow)
    (hr : r ∈ analyze_symbol_rows puts thr budget hd) :
    r.highlight = true ↔ (thr ≤ r.strike ∧ r.lastPrice ≤ budget ∧ hd ≤ r.expiration) := by
  unfold analyze_symbol_rows at hr
  rw [List.mem_map] at hr
  obtain ⟨p, hp, hrp⟩ := hr
  rw [List.mem_insertionSort] at hp
  unfold filtered_puts at hp
  rw [List.mem_filter] at hp
  obtain ⟨hp1, hp2⟩ := hp
  rw [List.mem_filter] at hp1
  obtain ⟨-, hstrike⟩ := hp1
  rw [decide_eq_true_eq] at hstrike hp2
  subst hrp
  show decide (hd ≤ p.expiration) = true ↔ (thr ≤ p.strike ∧ p.lastPrice ≤ budget ∧ hd ≤ p.expiration)
  rw [decide_eq_true_eq]
  exact ⟨fun hdate => ⟨hstrike, hp2, hdate⟩, fun hcon => hcon.2.2⟩

/-- Witness for `beta_highlight_iff` on a one-contract chain whose row is
highlighted. -/
theorem beta_highlight_iff_witness :
    ((⟨10, 5, 1, true⟩ : ScoredRow) ∈ analyze_symbol_rows [⟨10, 5, 1⟩] 1 2 3)
    ∧ ((true : Bool) = true ↔ ((1 : ℚ) ≤ 5 ∧ (1 : ℚ) ≤ 2 ∧ (3 : ℤ) ≤ 10)) :=
  ⟨by decide, by exact beta_highlight_iff [⟨10, 5, 1⟩] 1 2 3 ⟨10, 5, 1, true⟩ (by decide)⟩

/-- Claim C10.  In `analyze_symbol` (BBMaxBeta.py lines 138–141) every row
that survives coercion has a defined numeric last price and an expiration
normalized to midnight, and the surviving rows are exactly — in order — the
filtered rows whose price and expiration conversions both succeeded; a row
with a failed conversion is silently dropped rather than surfaced with a
missing value. -/
theorem coerce_drop_spec (l : List RawRow) :
    (∀ c ∈ dropnaRows (normalizeRows l), c.expiration.2 = 0)
    ∧ dropnaRows (normalizeRows l)
        = (l.filter (fun r => r.expirationRaw.isSome && r.lastPriceRaw.isSome)).map
            (fun r => ⟨((r.expirationRaw.getD (0, 0)).1, 0), r.lastPriceRaw.getD 0, r.strike⟩) := by
  have E : dropnaRows (normalizeRows l)
      = (l.filter (fun r => r.expirationRaw.isSome && r.lastPriceRaw.isSome)).map
          (fun r => ⟨((r.expirationRaw.getD (0, 0)).1, 0), r.lastPriceRaw.getD 0, r.strike⟩) := by
    induction l with
    | nil => rfl
    | cons r t ih =>
      cases hre : r.expirationRaw with
      | none =>
        simpa [dropnaRows, normalizeRows, List.filter_cons, hre] using ih
      | some e =>
        cases hrp : r.lastPriceRaw with
        | none =>
          simpa [dropnaRows, normalizeRows, List.filter_cons, hre, hrp] using ih
        | some q =>
          simpa [dropnaRows, normalizeRows, List.filter_cons, hre, hrp] using ih
  refine ⟨?_, E⟩
  intro c hc
  rw [E, List.mem_map] at hc
  obtain ⟨r, -, hcr⟩ := hc
  rw [← hcr]
